import Mathlib

/-!
Verification of the complement-edge BDD canonicalization core
(`crates/oxidd-rules-bdd/src/complement_edge/mod.rs`).

The data model is shallowly embedded: an edge is a pointer (terminal or
inner-node id) together with an `EdgeTag`; an inner node stores a level and
its two children. Borrowed and owned edges coincide in the pure model, so
`not` and `not_owned` are both given, matching the two source functions.
-/

namespace BCDD

/-- Edge tag in complement edge BDDs (`EdgeTag` in the source): `None` means
the edge denotes the referenced node's function, `Complemented` its
negation. -/
inductive EdgeTag where
  | None
  | Complemented
deriving DecidableEq, Repr

/-- Source `std::ops::Not for EdgeTag`: flip the tag. -/
def EdgeTag.not : EdgeTag → EdgeTag
  | EdgeTag.None => EdgeTag.Complemented
  | EdgeTag.Complemented => EdgeTag.None

/-- Source `std::ops::BitXor for EdgeTag`: combine two tags. -/
def EdgeTag.bitxor : EdgeTag → EdgeTag → EdgeTag
  | EdgeTag.None, EdgeTag.None => EdgeTag.None
  | EdgeTag.None, EdgeTag.Complemented => EdgeTag.Complemented
  | EdgeTag.Complemented, EdgeTag.None => EdgeTag.Complemented
  | EdgeTag.Complemented, EdgeTag.Complemented => EdgeTag.None

/-- Target of an edge: the single stored terminal node, or an inner node
identified by its id in the manager's node store. -/
inductive NodePtr where
  | terminal
  | inner (id : Nat)
deriving DecidableEq, Repr

/-- An edge: a node reference plus a tag. Edges compare by identity plus
tag (`PartialEq` on edges in the source). -/
structure Edge where
  ptr : NodePtr
  tag : EdgeTag
deriving DecidableEq, Repr

/-- Source `Edge::with_tag_owned`: same target, given tag (consumes the edge). -/
def Edge.with_tag_owned (e : Edge) (t : EdgeTag) : Edge := ⟨e.ptr, t⟩

/-- Source `Edge::with_tag`: borrowed view of the edge with the given tag. In the
pure model this coincides with `with_tag_owned`. -/
def Edge.with_tag (e : Edge) (t : EdgeTag) : Edge := ⟨e.ptr, t⟩

/-- Source `fn not_owned<E>(e: E) -> E`: flip an owned edge's tag. -/
def not_owned (e : Edge) : Edge := e.with_tag_owned e.tag.not

/-- Source `fn not<E>(e: &E) -> Borrowed<E>`: borrowed view with flipped tag. -/
def not (e : Edge) : Edge := e.with_tag e.tag.not

/-- An inner node (`InnerNode` with `ARITY = 2`): a level and the pair of
children `[then, else]` as passed to `N::new(level, [t, e])`. -/
structure BCDDNode where
  level : Nat
  children : Edge × Edge
deriving DecidableEq, Repr

/-- Source `InnerNode::child(n)`: the n-th child of a binary node. -/
def BCDDNode.child (n : BCDDNode) : Fin 2 → Edge
  | 0 => n.children.1
  | 1 => n.children.2

/-- Source `InnerNode::children()`: iterator over the children, in order
[then, else], modelled as the list of yielded items. -/
def BCDDNode.childrenList (n : BCDDNode) : List Edge :=
  [n.children.1, n.children.2]

/-- Type `ReducedOrNew<E, N>` from oxidd-core: outcome of the reduction rule. -/
inductive ReducedOrNew where
  | Reduced (e : Edge)
  | New (node : BCDDNode) (tag : EdgeTag)
deriving DecidableEq, Repr

/-- Source `BCDDRules::reduce(manager, level, children)`. The source pulls exactly
two children `t`, `e` out of the iterator; we take them directly. If
`t == e` the else-edge is dropped and `Reduced(t)` returned; otherwise a
candidate node is built, pushing a complement bit on the then-child out to
the resulting tag. -/
def reduceRule (level : Nat) (t e : Edge) : ReducedOrNew :=
  if t = e then
    ReducedOrNew.Reduced t
  else
    let tt := t.tag
    let et := e.tag
    if tt = EdgeTag.Complemented then
      ReducedOrNew.New ⟨level, (t.with_tag_owned EdgeTag.None, e.with_tag_owned et.not)⟩
        EdgeTag.Complemented
    else
      ReducedOrNew.New ⟨level, (t, e)⟩ EdgeTag.None

/-- Source `BCDDRules::cofactor(tag, node, n)`: child `n`, with its tag flipped on
the fly when the incoming edge is complemented. -/
def cofactor (tag : EdgeTag) (node : BCDDNode) (n : Fin 2) : Edge :=
  let e := node.child n
  if tag = EdgeTag.None then
    e
  else
    let e_tag := e.tag
    e.with_tag e_tag.not

/-- The `Cofactors` iterator state: the remaining children iterator and the
incoming edge's tag. -/
structure Cofactors where
  it : List Edge
  tag : EdgeTag
deriving DecidableEq, Repr

/-- Source `BCDDRules::cofactors(tag, node)`: the freshly constructed iterator. -/
def cofactors (tag : EdgeTag) (node : BCDDNode) : Cofactors :=
  ⟨node.childrenList, tag⟩

/-- Source `Iterator::next` for `Cofactors`: yields the next child unchanged when
the tag is `None`, and with inverted tag when `Complemented`. -/
def Cofactors.next (c : Cofactors) : Option Edge × Cofactors :=
  match c.it, c.tag with
  | [], _ => (Option.none, c)
  | e :: rest, EdgeTag.None => (Option.some e, ⟨rest, c.tag⟩)
  | e :: rest, EdgeTag.Complemented =>
    (Option.some (e.with_tag e.tag.not), ⟨rest, c.tag⟩)

/-- The manager's node store: inner node `i` is `nodes[i]`. The terminal is
the single stored terminal node (spec §3: exactly one terminal, denoting
true). Reference counts and garbage collection are not modelled. -/
structure Manager where
  nodes : List BCDDNode
deriving DecidableEq, Repr

/-- The `Node<...>` view returned by `Manager::get_node`: a terminal or a
reference to an inner node record, identified by its id. -/
inductive NodeView where
  | Terminal
  | Inner (id : Nat)
deriving DecidableEq, Repr

/-- Source `Manager::get_node(edge)`: resolve an edge to a terminal/inner view. -/
def Manager.get_node (_m : Manager) (e : Edge) : NodeView :=
  match e.ptr with
  | NodePtr.terminal => NodeView.Terminal
  | NodePtr.inner i => NodeView.Inner i

/-- Source `Manager::clone_edge`: in the pure model, the same edge value. -/
def Manager.clone_edge (_m : Manager) (e : Edge) : Edge := e

/-- Modelled from the spec: `Manager::get_terminal(BCDDTerminal)` of the
external node/edge manager (oxidd-core, not under src/). Spec §3: "exactly
one stored terminal node, denoting Boolean true"; the lookup returns an
edge to it (default tag `None`) and only fails on allocation failure, which
cannot occur for the already-stored terminal, hence `some`. -/
def Manager.get_terminal_raw (_m : Manager) : Option Edge :=
  Option.some ⟨NodePtr.terminal, EdgeTag.None⟩

/-- Source `fn get_terminal(manager, val)` with the internal `.unwrap()` made
explicit: `none` models a panic of the unwrap. -/
def get_terminal_checked (m : Manager) (val : Bool) : Option Edge :=
  match m.get_terminal_raw with
  | Option.none => Option.none
  | Option.some t =>
    Option.some (if val then t else t.with_tag_owned EdgeTag.Complemented)

/-- Source `fn get_terminal(manager, val)`: the total version used by the
terminal-case shortcuts. -/
def get_terminal (m : Manager) (val : Bool) : Edge :=
  match get_terminal_checked m val with
  | Option.some e => e
  | Option.none => ⟨NodePtr.terminal, EdgeTag.None⟩

/-- Type `NodesOrDone<E, N>`: either both operands' inner node records (by id),
or a finished result edge. -/
inductive NodesOrDone where
  | Nodes (fnode gnode : Nat)
  | Done (e : Edge)
deriving DecidableEq, Repr

/-- Source `fn terminal_and(manager, f, g)`: terminal case for And. -/
def terminal_and (m : Manager) (f g : Edge) : NodesOrDone :=
  let ft := f.tag
  let gt := g.tag
  let fu := f.with_tag EdgeTag.None
  let gu := g.with_tag EdgeTag.None
  if fu = gu then
    if ft = gt then
      NodesOrDone.Done (m.clone_edge g)
    else
      NodesOrDone.Done (get_terminal m false)
  else
    match m.get_node f, m.get_node g with
    | NodeView.Inner fnode, NodeView.Inner gnode => NodesOrDone.Nodes fnode gnode
    | NodeView.Inner _, NodeView.Terminal =>
      NodesOrDone.Done
        (if gt = EdgeTag.Complemented then get_terminal m false else m.clone_edge f)
    | NodeView.Terminal, NodeView.Inner _ =>
      NodesOrDone.Done
        (if ft = EdgeTag.Complemented then get_terminal m false else m.clone_edge g)
    | NodeView.Terminal, NodeView.Terminal =>
      NodesOrDone.Done
        (get_terminal m (decide (ft = EdgeTag.None) && decide (gt = EdgeTag.None)))

/-- Source `fn terminal_xor(manager, f, g)`: terminal case for Xor. -/
def terminal_xor (m : Manager) (f g : Edge) : NodesOrDone :=
  let ft := f.tag
  let gt := g.tag
  let fu := f.with_tag EdgeTag.None
  let gu := g.with_tag EdgeTag.None
  if fu = gu then
    NodesOrDone.Done (get_terminal m (decide (ft ≠ gt)))
  else
    match m.get_node f, m.get_node g with
    | NodeView.Inner fnode, NodeView.Inner gnode => NodesOrDone.Nodes fnode gnode
    | NodeView.Inner _, NodeView.Terminal =>
      let h := m.clone_edge f
      if gt = EdgeTag.Complemented then
        NodesOrDone.Done h
      else
        NodesOrDone.Done (not_owned h)
    | NodeView.Terminal, NodeView.Inner _ =>
      let h := m.clone_edge g
      if ft = EdgeTag.Complemented then
        NodesOrDone.Done h
      else
        NodesOrDone.Done (not_owned h)
    | NodeView.Terminal, NodeView.Terminal =>
      NodesOrDone.Done (get_terminal m (decide (ft ≠ gt)))

/-- Source `BCDDOp`: native operators of this BDD implementation. -/
inductive BCDDOp where
  | And
  | Xor
  | Ite
  | Restrict
  | Forall
  | Exist
  | Unique
deriving DecidableEq, Repr

/-- Modelled from the spec: the external canonical-node store's
registration step (`ReducedOrNew::then_insert` of oxidd-core, not under
src/). Spec §4.2 postcondition: a `New` candidate is passed through the
content-addressed store keyed on (level, then, else), "which either
registers it or returns an existing equal node ... before producing a
resident edge tagged with resulting_tag"; a `Reduced` outcome is returned
as is. -/
def ReducedOrNew.then_insert (r : ReducedOrNew) (m : Manager) : Edge × Manager :=
  match r with
  | ReducedOrNew.Reduced e => (e, m)
  | ReducedOrNew.New n tag =>
    match m.nodes.findIdx? (fun x => decide (x = n)) with
    | Option.some i => (⟨NodePtr.inner i, tag⟩, m)
    | Option.none => (⟨NodePtr.inner m.nodes.length, tag⟩, ⟨m.nodes ++ [n]⟩)

/-- Look up an inner node record by id. -/
def Manager.node? (m : Manager) (i : Nat) : Option BCDDNode := m.nodes[i]?

/-- The operand's cofactor pair at `level` (spec §4.7 step 4): if the
operand's own node is at `level`, its two cofactors under the operand's
tag; operands whose own level is strictly greater act as their own
cofactor on both branches. -/
def operandCofactors (f : Edge) (fnode : BCDDNode) (level : Nat) : Edge × Edge :=
  if fnode.level = level then
    (cofactor f.tag fnode 0, cofactor f.tag fnode 1)
  else
    (f, f)

/-- Modelled from the spec: the sequential binary apply engine for And and
Xor (`apply_rec_st`, not under src/), spec §4.7: evaluate the
operator-specific terminal-case shortcut; on `Done` return it; otherwise
take `level` as the minimum level of the operand nodes, recurse on the
then- and else-cofactor pairs, and pass (level, then, else) through the
reduction rule and the canonical-node store. The memoization cache is
omitted: a miss is always safe and the recursive path recomputes (spec
§6). `fuel` bounds the recursion depth (the real recursion terminates on
the finite DAG); `none` models fuel exhaustion or an unsupported operator. -/
def applyBin : Nat → BCDDOp → Edge → Edge → Manager → Option (Edge × Manager)
  | 0, _, _, _, _ => Option.none
  | fuel + 1, op, f, g, m =>
    let short : Option NodesOrDone :=
      match op with
      | BCDDOp.And => Option.some (terminal_and m f g)
      | BCDDOp.Xor => Option.some (terminal_xor m f g)
      | _ => Option.none
    match short with
    | Option.none => Option.none
    | Option.some (NodesOrDone.Done r) => Option.some (r, m)
    | Option.some (NodesOrDone.Nodes fi gi) =>
      (m.node? fi).bind fun fnode =>
        (m.node? gi).bind fun gnode =>
          let level := Nat.min fnode.level gnode.level
          let fcof := operandCofactors f fnode level
          let gcof := operandCofactors g gnode level
          (applyBin fuel op fcof.1 gcof.1 m).bind fun r1 =>
            (applyBin fuel op fcof.2 gcof.2 r1.2).bind fun r2 =>
              Option.some ((reduceRule level r1.1 r2.1).then_insert r2.2)

/-- Swap the two node references of a `Nodes` outcome; identity on `Done`. -/
def NodesOrDone.flip : NodesOrDone → NodesOrDone
  | NodesOrDone.Nodes a b => NodesOrDone.Nodes b a
  | NodesOrDone.Done e => NodesOrDone.Done e

/-- Semantics of a tag applied to a Boolean value: `Complemented` negates. -/
def EdgeTag.apply (t : EdgeTag) (b : Bool) : Bool :=
  match t with
  | EdgeTag.None => b
  | EdgeTag.Complemented => !b

/-- Denotation of an edge at one point, given an arbitrary denotation
`denPtr` of the node pointers at that point: the tag complements the
referenced node's value (spec §3, Edge). -/
def denoteEdge (denPtr : NodePtr → Bool) (e : Edge) : Bool :=
  e.tag.apply (denPtr e.ptr)

/-- Denotation of a decision at one point: `ite(x_L, t, e)` where `xL` is
the value of the level-`L` variable. -/
def denoteIte (xL : Bool) (thenVal elseVal : Bool) : Bool :=
  if xL then thenVal else elseVal

/-- Reading a node through an incoming edge with tag `tag`, via cofactor
extraction: the branch selected by `xL` among the two extracted
cofactors. -/
def denoteNodeVia (denPtr : NodePtr → Bool) (xL : Bool) (tag : EdgeTag)
    (n : BCDDNode) : Bool :=
  denoteIte xL (denoteEdge denPtr (cofactor tag n 0)) (denoteEdge denPtr (cofactor tag n 1))

/-- Concrete edge to the terminal, tag `None` (the constant true). -/
def eTrue : Edge := ⟨NodePtr.terminal, EdgeTag.None⟩

/-- Concrete edge to the terminal, tag `Complemented` (the constant false). -/
def eFalse : Edge := ⟨NodePtr.terminal, EdgeTag.Complemented⟩

/-- Concrete edge to inner node 0, tag `None`. -/
def eInner0 : Edge := ⟨NodePtr.inner 0, EdgeTag.None⟩

/-- Concrete edge to inner node 0, tag `Complemented`. -/
def eInner0c : Edge := ⟨NodePtr.inner 0, EdgeTag.Complemented⟩

/-- Concrete edge to inner node 1, tag `None`. -/
def eInner1 : Edge := ⟨NodePtr.inner 1, EdgeTag.None⟩

/-- A concrete manager holding one inner node: the projection to the
variable at level 0 (then-child true, else-child false). -/
def mgrX0 : Manager := ⟨[⟨0, (eTrue, eFalse)⟩]⟩

/-- C1: the function `reduce` returns `Reduced(t)` when the two child edges coincide
(identity and tag); otherwise, when the then-edge is complemented, it
returns `New` of a node at the given level with then-child `t` retagged
`None` and else-child `e` with inverted tag, under resulting tag
`Complemented`; otherwise `New` of a node with children exactly `(t, e)`
under resulting tag `None`. -/
theorem C1_reduce_cases (L : Nat) (t e : Edge) :
    (t = e → reduceRule L t e = ReducedOrNew.Reduced t)
    ∧ (t ≠ e → t.tag = EdgeTag.Complemented →
        reduceRule L t e =
          ReducedOrNew.New
            ⟨L, (t.with_tag_owned EdgeTag.None, e.with_tag_owned e.tag.not)⟩
            EdgeTag.Complemented)
    ∧ (t ≠ e → t.tag ≠ EdgeTag.Complemented →
        reduceRule L t e = ReducedOrNew.New ⟨L, (t, e)⟩ EdgeTag.None) := by
  refine ⟨fun h => ?_, fun hne htag => ?_, fun hne htag => ?_⟩
  · simp [reduceRule, h]
  · simp [reduceRule, hne, htag]
  · simp [reduceRule, hne, htag]

/-- C1 witness: a concrete complemented then-edge case. -/
theorem C1_reduce_cases_witness :
    reduceRule 3 eInner0c eFalse =
      ReducedOrNew.New ⟨3, (eInner0, eTrue)⟩ EdgeTag.Complemented :=
  (C1_reduce_cases 3 eInner0c eFalse).2.1 (by decide) (by decide)

/-- C2: whenever `reduce` yields a `New(node, tag)` outcome, the then-child
(child index 0) of the constructed node carries tag `None`: the complement
bit is never stored on the then-child. -/
theorem C2_new_then_child_untagged (L : Nat) (t e : Edge) (n : BCDDNode)
    (tag : EdgeTag) (h : reduceRule L t e = ReducedOrNew.New n tag) :
    (n.child 0).tag = EdgeTag.None := by
  by_cases hte : t = e
  · simp [reduceRule, hte] at h
  · by_cases htag : t.tag = EdgeTag.Complemented
    · simp [reduceRule, hte, htag] at h
      cases h.1
      simp [BCDDNode.child, Edge.with_tag_owned]
    · simp [reduceRule, hte, htag] at h
      cases h.1
      cases htt : t.tag
      · simp [BCDDNode.child, htt]
      · exact absurd htt htag

/-- C2 witness: evaluated at a concrete `New` outcome. -/
theorem C2_new_then_child_untagged_witness :
    ((⟨5, (eInner0, eFalse)⟩ : BCDDNode).child 0).tag = EdgeTag.None :=
  C2_new_then_child_untagged 5 eInner0 eFalse ⟨5, (eInner0, eFalse)⟩ EdgeTag.None
    (by decide)

/-- C3: the reduction rule preserves the denoted Boolean function. At any
point (any pointer denotation `denPtr`, any value `xL` of the level-`L`
variable): a `Reduced(t)` outcome (case `t = e`) denotes `ite(x_L, t, e)`,
and for any `New(n, tag)` outcome, reading `n` through an incoming edge
with tag `tag` via cofactor extraction denotes `ite(x_L, t, e)`. -/
theorem C3_reduce_preserves_semantics (denPtr : NodePtr → Bool) (xL : Bool)
    (L : Nat) (t e : Edge) :
    (t = e →
      denoteEdge denPtr t =
        denoteIte xL (denoteEdge denPtr t) (denoteEdge denPtr e))
    ∧ (∀ (n : BCDDNode) (tag : EdgeTag),
        reduceRule L t e = ReducedOrNew.New n tag →
        denoteNodeVia denPtr xL tag n =
          denoteIte xL (denoteEdge denPtr t) (denoteEdge denPtr e)) := by
  constructor
  · intro h
    cases h
    cases xL <;> simp [denoteIte]
  · intro n tag h
    by_cases hte : t = e
    · simp [reduceRule, hte] at h
    · by_cases htag : t.tag = EdgeTag.Complemented
      · simp [reduceRule, hte, htag] at h
        cases h.1
        cases h.2
        cases het : e.tag <;> cases xL <;>
          simp [denoteNodeVia, denoteIte, cofactor, denoteEdge, EdgeTag.apply,
            BCDDNode.child, Edge.with_tag, Edge.with_tag_owned, EdgeTag.not,
            htag, het]
      · simp [reduceRule, hte, htag] at h
        cases h.1
        cases h.2
        cases htt : t.tag
        · cases xL <;>
            simp [denoteNodeVia, denoteIte, cofactor, denoteEdge, EdgeTag.apply,
              BCDDNode.child]
        · exact absurd htt htag

/-- C3 witness: a concrete `New` outcome read back through its resulting
tag denotes the decision on the original children. -/
theorem C3_reduce_preserves_semantics_witness :
    denoteNodeVia (fun _ => true) true EdgeTag.Complemented
        ⟨0, (eInner0, eTrue)⟩ =
      denoteIte true (denoteEdge (fun _ => true) eInner0c)
        (denoteEdge (fun _ => true) eFalse) :=
  (C3_reduce_preserves_semantics (fun _ => true) true 0 eInner0c eFalse).2
    ⟨0, (eInner0, eTrue)⟩ EdgeTag.Complemented (by decide)

/-- C7: the function `get_terminal` returns an edge to the single stored terminal node,
tagged `None` when the argument is true and `Complemented` when it is
false; the internal unwrap of the manager's terminal lookup never panics
(the checked version always returns `some`). -/
theorem C7_get_terminal_total (m : Manager) (b : Bool) :
    get_terminal_checked m b =
      Option.some
        ⟨NodePtr.terminal, if b then EdgeTag.None else EdgeTag.Complemented⟩
    ∧ get_terminal m b =
      ⟨NodePtr.terminal, if b then EdgeTag.None else EdgeTag.Complemented⟩ := by
  cases b <;>
    simp [get_terminal, get_terminal_checked, Manager.get_terminal_raw,
      Edge.with_tag_owned]

/-- C9: edge negation is an involution (both the owned and the borrowed
variant), and the tag operations form a two-element group: `bitxor` is
commutative and associative with identity `None`,
`bitxor Complemented Complemented = None`, and `not` is a self-inverse
flip. -/
theorem C9_tag_group (e : Edge) (a b c : EdgeTag) :
    not_owned (not_owned e) = e
    ∧ BCDD.not (BCDD.not e) = e
    ∧ a.not.not = a
    ∧ EdgeTag.bitxor a b = EdgeTag.bitxor b a
    ∧ EdgeTag.bitxor (EdgeTag.bitxor a b) c =
        EdgeTag.bitxor a (EdgeTag.bitxor b c)
    ∧ EdgeTag.bitxor EdgeTag.None a = a
    ∧ EdgeTag.bitxor a EdgeTag.None = a
    ∧ EdgeTag.bitxor EdgeTag.Complemented EdgeTag.Complemented =
        EdgeTag.None := by
  obtain ⟨p, tg⟩ := e
  cases tg <;> cases a <;> cases b <;> cases c <;>
    simp [not_owned, BCDD.not, EdgeTag.not, EdgeTag.bitxor, Edge.with_tag,
      Edge.with_tag_owned]

/-- C6: the function `cofactor` and the `Cofactors` iterator return the node's children
in order [then, else]; under incoming tag `None` the children's stored tags
are unchanged, under `Complemented` each returned view carries the child's
tag inverted; the iterator yields exactly 2 items and, once exhausted,
keeps returning `none`. -/
theorem C6_cofactor_iterator (tag : EdgeTag) (n : BCDDNode) :
    (tag = EdgeTag.None →
      cofactor tag n 0 = n.child 0 ∧ cofactor tag n 1 = n.child 1)
    ∧ (tag = EdgeTag.Complemented →
      cofactor tag n 0 = (n.child 0).with_tag (n.child 0).tag.not ∧
      cofactor tag n 1 = (n.child 1).with_tag (n.child 1).tag.not)
    ∧ (cofactors tag n).next.1 = Option.some (cofactor tag n 0)
    ∧ (cofactors tag n).next.2.next.1 = Option.some (cofactor tag n 1)
    ∧ (cofactors tag n).next.2.next.2.next.1 = Option.none
    ∧ (∀ c : Cofactors, c.next.1 = Option.none →
        c.next.2 = c ∧ c.next.2.next.1 = Option.none) := by
  refine ⟨fun h => ?_, fun h => ?_, ?_, ?_, ?_, fun c hc => ?_⟩
  · cases h; exact ⟨rfl, rfl⟩
  · cases h; exact ⟨rfl, rfl⟩
  · cases tag <;>
      simp [cofactors, Cofactors.next, BCDDNode.childrenList, cofactor,
        BCDDNode.child]
  · cases tag <;>
      simp [cofactors, Cofactors.next, BCDDNode.childrenList, cofactor,
        BCDDNode.child]
  · cases tag <;>
      simp [cofactors, Cofactors.next, BCDDNode.childrenList]
  · obtain ⟨it, ctag⟩ := c
    cases it with
    | nil => cases ctag <;> simp [Cofactors.next]
    | cons x xs => cases ctag <;> simp [Cofactors.next] at hc

/-- C6 witness: the iterator on a concrete node under a complemented
incoming edge. -/
theorem C6_cofactor_iterator_witness :
    cofactor EdgeTag.Complemented ⟨0, (eTrue, eFalse)⟩ 0 =
        ((⟨0, (eTrue, eFalse)⟩ : BCDDNode).child 0).with_tag
          ((⟨0, (eTrue, eFalse)⟩ : BCDDNode).child 0).tag.not ∧
      cofactor EdgeTag.Complemented ⟨0, (eTrue, eFalse)⟩ 1 =
        ((⟨0, (eTrue, eFalse)⟩ : BCDDNode).child 1).with_tag
          ((⟨0, (eTrue, eFalse)⟩ : BCDDNode).child 1).tag.not :=
  (C6_cofactor_iterator EdgeTag.Complemented ⟨0, (eTrue, eFalse)⟩).2.1 rfl

/-- C4: complete case analysis of the And terminal-case shortcut: equal
operands up to tag give `clone(g)` or terminal false; a single terminal
operand gives terminal false when it is complemented and a clone of the
inner operand otherwise; two terminal operands give the conjunction of
their truth values; `Nodes` is returned exactly for distinct inner
operands (distinct ignoring tags). -/
theorem C4_terminal_and_cases (m : Manager) (f g : Edge) :
    (f.ptr = g.ptr → f.tag = g.tag →
      terminal_and m f g = NodesOrDone.Done g)
    ∧ (f.ptr = g.ptr → f.tag ≠ g.tag →
      terminal_and m f g = NodesOrDone.Done (get_terminal m false))
    ∧ (f.ptr = NodePtr.terminal → g.ptr ≠ NodePtr.terminal →
      terminal_and m f g =
        NodesOrDone.Done
          (if f.tag = EdgeTag.Complemented then get_terminal m false else g))
    ∧ (f.ptr ≠ NodePtr.terminal → g.ptr = NodePtr.terminal →
      terminal_and m f g =
        NodesOrDone.Done
          (if g.tag = EdgeTag.Complemented then get_terminal m false else f))
    ∧ (f.ptr = NodePtr.terminal → g.ptr = NodePtr.terminal →
      terminal_and m f g =
        NodesOrDone.Done
          (get_terminal m
            (decide (f.tag = EdgeTag.None) && decide (g.tag = EdgeTag.None))))
    ∧ (∀ fi gi, terminal_and m f g = NodesOrDone.Nodes fi gi ↔
        (f.ptr = NodePtr.inner fi ∧ g.ptr = NodePtr.inner gi ∧ f.ptr ≠ g.ptr)) := by
  obtain ⟨fp, ftag⟩ := f
  obtain ⟨gp, gtag⟩ := g
  refine ⟨?_, ?_, ?_, ?_, ?_, ?_⟩
  all_goals
    cases fp <;> cases gp <;> cases ftag <;> cases gtag <;>
      simp [terminal_and, Edge.with_tag, Manager.get_node, Manager.clone_edge,
        get_terminal, get_terminal_checked, Manager.get_terminal_raw,
        Edge.with_tag_owned]
  all_goals rename_i i j
  all_goals
    intro fi gi
    rcases eq_or_ne i j with hij | hij <;> simp [hij]

/-- C4 witness: one terminal operand (true) and one inner operand. -/
theorem C4_terminal_and_cases_witness :
    terminal_and mgrX0 eTrue eInner0 = NodesOrDone.Done eInner0 := by
  have h :=
    (C4_terminal_and_cases mgrX0 eTrue eInner0).2.2.1 rfl (by decide)
  simpa using h

/-- C5: complete case analysis of the Xor terminal-case shortcut: operands
on the same underlying node give the terminal of the tag disequality; a
single terminal operand gives a clone of the inner operand, with its tag
inverted exactly when the terminal operand denotes true; two terminal
operands give the terminal of the tag disequality; `Nodes` is returned
exactly for distinct inner operands (distinct ignoring tags). -/
theorem C5_terminal_xor_cases (m : Manager) (f g : Edge) :
    (f.ptr = g.ptr →
      terminal_xor m f g =
        NodesOrDone.Done (get_terminal m (decide (f.tag ≠ g.tag))))
    ∧ (f.ptr = NodePtr.terminal → g.ptr ≠ NodePtr.terminal →
      terminal_xor m f g =
        NodesOrDone.Done
          (if f.tag = EdgeTag.Complemented then g else not_owned g))
    ∧ (f.ptr ≠ NodePtr.terminal → g.ptr = NodePtr.terminal →
      terminal_xor m f g =
        NodesOrDone.Done
          (if g.tag = EdgeTag.Complemented then f else not_owned f))
    ∧ (f.ptr = NodePtr.terminal → g.ptr = NodePtr.terminal →
      terminal_xor m f g =
        NodesOrDone.Done (get_terminal m (decide (f.tag ≠ g.tag))))
    ∧ (∀ fi gi, terminal_xor m f g = NodesOrDone.Nodes fi gi ↔
        (f.ptr = NodePtr.inner fi ∧ g.ptr = NodePtr.inner gi ∧ f.ptr ≠ g.ptr)) := by
  obtain ⟨fp, ftag⟩ := f
  obtain ⟨gp, gtag⟩ := g
  refine ⟨?_, ?_, ?_, ?_, ?_⟩
  all_goals
    cases fp <;> cases gp <;> cases ftag <;> cases gtag <;>
      simp [terminal_xor, Edge.with_tag, Manager.get_node, Manager.clone_edge,
        get_terminal, get_terminal_checked, Manager.get_terminal_raw,
        Edge.with_tag_owned, not_owned, EdgeTag.not]
  all_goals rename_i i j
  all_goals
    intro fi gi
    rcases eq_or_ne i j with hij | hij <;> simp [hij]

/-- C5 witness: a true terminal operand negates the inner operand. -/
theorem C5_terminal_xor_cases_witness :
    terminal_xor mgrX0 eTrue eInner0 = NodesOrDone.Done (not_owned eInner0) := by
  have h :=
    (C5_terminal_xor_cases mgrX0 eTrue eInner0).2.1 rfl (by decide)
  simpa using h

/-- Commutativity of `Nat.min`. -/
theorem natMin_comm (a b : Nat) : Nat.min a b = Nat.min b a :=
  Nat.min_comm a b

/-- Swapping the operands of `terminal_and` flips a `Nodes` outcome and
leaves a `Done` outcome unchanged. -/
theorem terminal_and_symm (m : Manager) (f g : Edge) :
    terminal_and m g f = (terminal_and m f g).flip := by
  obtain ⟨fp, ftag⟩ := f
  obtain ⟨gp, gtag⟩ := g
  cases fp <;> cases gp <;> cases ftag <;> cases gtag <;>
    simp [terminal_and, NodesOrDone.flip, Edge.with_tag, Manager.get_node,
      Manager.clone_edge, get_terminal, get_terminal_checked,
      Manager.get_terminal_raw, Edge.with_tag_owned]
  all_goals rename_i i j
  all_goals rcases eq_or_ne i j with hij | hij
  all_goals
    first
    | (subst hij; simp [NodesOrDone.flip])
    | simp [hij, hij.symm, NodesOrDone.flip]

/-- Swapping the operands of `terminal_xor` flips a `Nodes` outcome and
leaves a `Done` outcome unchanged. -/
theorem terminal_xor_symm (m : Manager) (f g : Edge) :
    terminal_xor m g f = (terminal_xor m f g).flip := by
  obtain ⟨fp, ftag⟩ := f
  obtain ⟨gp, gtag⟩ := g
  cases fp <;> cases gp <;> cases ftag <;> cases gtag <;>
    simp [terminal_xor, NodesOrDone.flip, Edge.with_tag, Manager.get_node,
      Manager.clone_edge, get_terminal, get_terminal_checked,
      Manager.get_terminal_raw, Edge.with_tag_owned, not_owned, EdgeTag.not]
  all_goals rename_i i j
  all_goals rcases eq_or_ne i j with hij | hij
  all_goals
    first
    | (subst hij; simp [NodesOrDone.flip])
    | simp [hij, hij.symm, NodesOrDone.flip]

/-- The modelled apply engine is commutative for And and Xor: swapping the
operands changes neither the resulting edge nor the evolution of the node
store. -/
theorem applyBin_symm (fuel : Nat) (op : BCDDOp)
    (hop : op = BCDDOp.And ∨ op = BCDDOp.Xor) :
    ∀ (f g : Edge) (s : Manager),
      applyBin fuel op g f s = applyBin fuel op f g s := by
  induction fuel with
  | zero => intro f g s; rfl
  | succ fuel ih =>
    intro f g s
    rcases hop with h | h <;> subst h
    · simp only [applyBin]
      rw [terminal_and_symm s f g]
      cases hT : terminal_and s f g with
      | Done r => rfl
      | Nodes fi gi =>
        simp only [NodesOrDone.flip]
        cases hf : s.node? fi <;> cases hg : s.node? gi <;>
          simp only [Option.bind]
        rename_i fn gn
        rw [natMin_comm gn.level fn.level, ih]
        cases hr1 :
            applyBin fuel BCDDOp.And
              (operandCofactors f fn (Nat.min fn.level gn.level)).1
              (operandCofactors g gn (Nat.min fn.level gn.level)).1 s with
        | none => rfl
        | some v =>
          obtain ⟨t, m1⟩ := v
          simp only [Option.bind]
          rw [ih]
    · simp only [applyBin]
      rw [terminal_xor_symm s f g]
      cases hT : terminal_xor s f g with
      | Done r => rfl
      | Nodes fi gi =>
        simp only [NodesOrDone.flip]
        cases hf : s.node? fi <;> cases hg : s.node? gi <;>
          simp only [Option.bind]
        rename_i fn gn
        rw [natMin_comm gn.level fn.level, ih]
        cases hr1 :
            applyBin fuel BCDDOp.Xor
              (operandCofactors f fn (Nat.min fn.level gn.level)).1
              (operandCofactors g gn (Nat.min fn.level gn.level)).1 s with
        | none => rfl
        | some v =>
          obtain ⟨t, m1⟩ := v
          simp only [Option.bind]
          rw [ih]

/-- C8: And and Xor are commutative: the terminal-case shortcuts are
symmetric (a `Done` result is unchanged, a `Nodes` result is swapped) and
the apply engine returns the same edge and node store when its operands
are exchanged, for any recursion budget and any starting store. -/
theorem C8_and_xor_commutative (m : Manager) (f g : Edge) (fuel : Nat)
    (s : Manager) :
    terminal_and m g f = (terminal_and m f g).flip
    ∧ terminal_xor m g f = (terminal_xor m f g).flip
    ∧ applyBin fuel BCDDOp.And g f s = applyBin fuel BCDDOp.And f g s
    ∧ applyBin fuel BCDDOp.Xor g f s = applyBin fuel BCDDOp.Xor f g s :=
  ⟨terminal_and_symm m f g, terminal_xor_symm m f g,
    applyBin_symm fuel BCDDOp.And (Or.inl rfl) f g s,
    applyBin_symm fuel BCDDOp.Xor (Or.inr rfl) f g s⟩

end BCDD
